import Mathlib

/-!
# A verification of the RESP codec in `src/resp.rs`

This file gives a shallow embedding of the RESP protocol codec
(`resp.rs` of redis-async-rs) and proves/refutes the frozen claims
about it.

Modelling conventions:
* Rust byte buffers (`BytesMut`, `Vec<u8>`, byte slices) are `List Nat`
  whose elements are byte values (`< 256` where it matters).
* Rust `String` is represented by the list of its UTF-8 bytes.  Rust
  guarantees a `String` holds valid UTF-8; that invariant becomes an
  explicit hypothesis (`utf8Valid`) where a claim quantifies over values.
* Rust `usize` is `Nat`; the places where the source can overflow or
  panic (`parse::<usize>().expect(..)`) are modelled explicitly, with a
  dedicated `panic` outcome mirroring a Rust panic.
* The recursive `decode` of the source terminates because every nested
  call starts at a strictly larger buffer index; the embedding makes the
  same variant explicit as a fuel argument (`decodeF`), and the public
  entry point `decodeTop` supplies `buf.length + 1` fuel, which the
  lemmas below show is always sufficient (no lemma ever relies on fuel
  exhaustion: each proved outcome is reached through the actual branch
  structure of the source).
-/

set_option maxHeartbeats 1000000

/-- `usize::MAX` on a 64-bit target. -/
def USIZE_MAX : Nat := 18446744073709551615

/-- `isize::MAX` on a 64-bit target; every Rust allocation (hence every
`Vec` length) is bounded by it. -/
def ISIZE_MAX : Nat := 9223372036854775807

/-- The bytes of an ASCII string literal (used for the diagnostic
messages the source builds with `format!`). -/
def strBytes (s : String) : List Nat := s.data.map Char.toNat

/-! ## Decimal digits: `usize::to_string` and `str::parse::<usize>` -/

/-- Little-endian decimal digits (as ASCII bytes) of `n`; the first
argument is structural fuel (`n` itself is always enough). -/
def decDigitsCore : Nat → Nat → List Nat
  | 0, _ => []
  | f + 1, n => if n = 0 then [] else (n % 10 + 48) :: decDigitsCore f (n / 10)

/-- `n.to_string().as_bytes()`: most-significant-first ASCII decimal
digits of `n`, with `"0"` for zero. -/
def natToDecBytes (n : Nat) : List Nat :=
  if n = 0 then [48] else (decDigitsCore n n).reverse

/-- `str::parse::<usize>` on a digit string (the numeric value; whether
parsing succeeds is decided separately). -/
def parseDec (s : List Nat) : Nat := s.foldl (fun a d => a * 10 + (d - 48)) 0

/-- `"<s>".parse::<usize>()` succeeds exactly on a non-empty all-digit
string whose value fits in `usize`. -/
def parsesToUsize (s : List Nat) : Bool :=
  !s.isEmpty && s.all (fun d => decide (48 ≤ d) && decide (d ≤ 57))
    && decide (parseDec s ≤ USIZE_MAX)

/-! ## UTF-8: `String::from_utf8_lossy`

Model of Rust's UTF-8 validation (`core::str::validations`): the
byte-pattern table below is exactly Rust's accepted-sequence table. -/

/-- A UTF-8 continuation byte (`0x80..=0xBF`). -/
def isCont (b : Nat) : Bool := 128 ≤ b && b ≤ 191

/-- Length of the valid UTF-8 sequence starting at the head of `l`
(`none` if the head does not start a valid sequence). -/
def utf8SeqLen : List Nat → Option Nat
  | [] => none
  | b :: rest =>
    if b ≤ 127 then some 1
    else if 194 ≤ b && b ≤ 223 then
      match rest with
      | c1 :: _ => if isCont c1 then some 2 else none
      | [] => none
    else if 224 ≤ b && b ≤ 239 then
      match rest with
      | c1 :: c2 :: _ =>
        if (if b = 224 then 160 ≤ c1 && c1 ≤ 191
            else if b = 237 then 128 ≤ c1 && c1 ≤ 159
            else isCont c1) && isCont c2
        then some 3 else none
      | _ => none
    else if 240 ≤ b && b ≤ 244 then
      match rest with
      | c1 :: c2 :: c3 :: _ =>
        if (if b = 240 then 144 ≤ c1 && c1 ≤ 191
            else if b = 244 then 128 ≤ c1 && c1 ≤ 143
            else isCont c1) && isCont c2 && isCont c3
        then some 4 else none
      | _ => none
    else none

/-- How many bytes Rust's lossy decoding skips at an invalid position:
the maximal valid prefix of a sequence, at least one byte. -/
def utf8ErrLen : List Nat → Nat
  | [] => 1
  | b :: rest =>
    if 224 ≤ b && b ≤ 239 then
      match rest with
      | c1 :: _ =>
        if (if b = 224 then 160 ≤ c1 && c1 ≤ 191
            else if b = 237 then 128 ≤ c1 && c1 ≤ 159
            else isCont c1) then 2 else 1
      | [] => 1
    else if 240 ≤ b && b ≤ 244 then
      match rest with
      | c1 :: c2 :: _ =>
        if (if b = 240 then 144 ≤ c1 && c1 ≤ 191
            else if b = 244 then 128 ≤ c1 && c1 ≤ 143
            else isCont c1) then (if isCont c2 then 3 else 2) else 1
      | [c1] =>
        if (if b = 240 then 144 ≤ c1 && c1 ≤ 191
            else if b = 244 then 128 ≤ c1 && c1 ≤ 143
            else isCont c1) then 2 else 1
      | [] => 1
    else 1

/-- `String::from_utf8_lossy`, fuelled (the input length is enough
fuel): valid sequences are copied verbatim, each maximal invalid chunk
becomes U+FFFD (bytes `EF BF BD`). -/
def lossyF : Nat → List Nat → List Nat
  | 0, _ => []
  | _ + 1, [] => []
  | f + 1, l =>
    match utf8SeqLen l with
    | some k => l.take k ++ lossyF f (l.drop k)
    | none => 239 :: 191 :: 189 :: lossyF f (l.drop (utf8ErrLen l))

/-- `String::from_utf8_lossy(bytes).into_owned()`, as UTF-8 bytes. -/
def fromUtf8Lossy (s : List Nat) : List Nat := lossyF s.length s

/-- UTF-8 validity of a byte list, fuelled. -/
def utf8ValidF : Nat → List Nat → Bool
  | 0, l => l.isEmpty
  | _ + 1, [] => true
  | f + 1, l =>
    match utf8SeqLen l with
    | some k => utf8ValidF f (l.drop k)
    | none => false

/-- The invariant of a Rust `String`: its bytes are valid UTF-8. -/
def utf8Valid (s : List Nat) : Bool := utf8ValidF s.length s

/-! ## The value model: `RespValue` and the error type

The `Error` enum lives in `error.rs`, which is not part of the sources;
only the two constructors used by `resp.rs` are needed.

Modelled from the spec: the external error type "supplies at least a
parse-failure kind (diagnostic message, optional offending value) and a
remote-failure kind (server error text)"; `Error::RESP(msg, opt_value)`
and `Error::Remote(text)` are used verbatim in `resp.rs`, and the
`error::resp(msg, value)` helper builds the parse-failure kind carrying
the offending value. -/

/-- A single RESP value (`enum RespValue`). -/
inductive RespValue where
  | Array : List RespValue → RespValue
  | BulkString : List Nat → RespValue
  | Error : List Nat → RespValue
  | Integer : Nat → RespValue
  | SimpleString : List Nat → RespValue

/-- The external `Error` enum (the two constructors `resp.rs` uses). -/
inductive RError where
  | RESP : List Nat → Option RespValue → RError
  | Remote : List Nat → RError

/-- `error::resp(message, value)`: a parse/conversion failure carrying
the offending value.  Modelled from the spec: the parse-failure kind has
a diagnostic message and an optional offending value. -/
def errorResp (msg : String) (v : RespValue) : RError :=
  RError.RESP (strBytes msg) (some v)

/-- `parse_error(message)` of `resp.rs`: `Error::RESP(message, None)`. -/
def parseError (msg : List Nat) : RError := RError.RESP msg none

/-- `RespValue::to_result`. -/
def toResult (v : RespValue) : Except RError RespValue :=
  match v with
  | RespValue.Error s => Except.error (RError.Remote s)
  | x => Except.ok x

/-- `impl FromResp for RespValue`, the `from_resp_int` part. -/
def fromRespIntRespValue (v : RespValue) : Except RError RespValue :=
  Except.ok v

/-- `impl FromResp for String`, the `from_resp_int` part. -/
def fromRespIntString (v : RespValue) : Except RError (List Nat) :=
  match v with
  | RespValue.BulkString bytes => Except.ok (fromUtf8Lossy bytes)
  | RespValue.Integer i => Except.ok (natToDecBytes i)
  | RespValue.SimpleString s => Except.ok s
  | _ => Except.error (errorResp "Cannot convert into a string" v)

/-- `impl FromResp for usize`, the `from_resp_int` part. -/
def fromRespIntUsize (v : RespValue) : Except RError Nat :=
  match v with
  | RespValue.Error s => Except.error (RError.Remote s)
  | RespValue.Integer i => Except.ok i
  | _ => Except.error (errorResp "Cannot be converted into a usize" v)

/-- `impl FromResp for ()`, the `from_resp_int` part. -/
def fromRespIntUnit (v : RespValue) : Except RError Unit :=
  match v with
  | RespValue.Error s => Except.error (RError.Remote s)
  | RespValue.SimpleString s =>
    if s = strBytes "OK" then Except.ok ()
    else Except.error (RError.RESP
      (strBytes "Unexpected value within SimpleString: " ++ s) none)
  | _ => Except.error (errorResp "Unexpected value" v)

/-- The default `FromResp::from_resp`: collapse `Error` via `to_result`,
then run the type-specific rule. -/
def fromResp {α : Type} (fri : RespValue → Except RError α) (v : RespValue) :
    Except RError α :=
  match toResult v with
  | Except.error e => Except.error e
  | Except.ok x => fri x

/-- `<RespValue as FromResp>::from_resp`. -/
def fromRespRespValue : RespValue → Except RError RespValue :=
  fromResp fromRespIntRespValue

/-- `<String as FromResp>::from_resp`. -/
def fromRespString : RespValue → Except RError (List Nat) :=
  fromResp fromRespIntString

/-- `<usize as FromResp>::from_resp`. -/
def fromRespUsize : RespValue → Except RError Nat :=
  fromResp fromRespIntUsize

/-- `<() as FromResp>::from_resp`. -/
def fromRespUnit : RespValue → Except RError Unit :=
  fromResp fromRespIntUnit

/-! ## Encoder -/

/-- `write_rn`: append `\r\n`. -/
def writeRn (buf : List Nat) : List Nat := buf ++ [13, 10]

/-- `write_header(symb, len, buf)`: append the tag byte, the decimal
length and `\r\n`.  (`check_and_reserve` only grows capacity and has no
effect on contents, so it is not modelled.) -/
def writeHeader (symb : Nat) (len : Nat) (buf : List Nat) : List Nat :=
  writeRn (buf ++ symb :: natToDecBytes len)

/-- `write_simple_string(symb, string, buf)`. -/
def writeSimpleString (symb : Nat) (s : List Nat) (buf : List Nat) : List Nat :=
  writeRn (buf ++ symb :: s)

mutual
/-- `Encoder::encode for RespCodec`: append the wire form of `msg` to
`buf`. -/
def encode : RespValue → List Nat → List Nat
  | RespValue.Array ary, buf => encodeList ary (writeHeader 42 ary.length buf)
  | RespValue.BulkString bstr, buf =>
      writeRn (writeHeader 36 bstr.length buf ++ bstr)
  | RespValue.Error s, buf => writeSimpleString 45 s buf
  | RespValue.Integer n, buf => writeHeader 58 n buf
  | RespValue.SimpleString s, buf => writeSimpleString 43 s buf

/-- The `for v in ary { self.encode(v, buf)? }` loop of the array case. -/
def encodeList : List RespValue → List Nat → List Nat
  | [], buf => buf
  | v :: vs, buf => encodeList vs (encode v buf)
end

/-- The encoding of a value into an empty buffer. -/
def enc (v : RespValue) : List Nat := encode v []

/-! ## Decoder -/

/-- The result of `scan_integer`/`decode_raw_integer`-style helpers that
can also panic (`.expect` in `decode_raw_integer`). -/
inductive RawOut where
  | panicked : RawOut
  | err : RError → RawOut
  | incomplete : RawOut
  | ok : Nat → Nat → RawOut

/-- The `DecodeResult` of the source, with an explicit `panicked`
outcome for Rust panics. `val pos v` is `Ok(Some((pos, v)))`,
`incomplete` is `Ok(None)`, `err e` is `Err(e)`. -/
inductive DecodeOut where
  | panicked : DecodeOut
  | err : RError → DecodeOut
  | incomplete : DecodeOut
  | val : Nat → RespValue → DecodeOut

/-- The message of the `scan_integer` failure arm:
`format!("Unexpected byte in size_string: {}", val)`. -/
def sizeMsg (b : Nat) : List Nat :=
  strBytes "Unexpected byte in size_string: " ++ natToDecBytes b

/-- The loop of `scan_integer`, with the loop variant
`buf.length - pos` made explicit as structural fuel (the caller passes
exactly that, so the fuel never runs out before the bounds check). -/
def scanILoop (buf : List Nat) (idx : Nat) :
    Nat → Bool → Nat → Except RError (Option (Nat × List Nat))
  | 0, _, _ => Except.ok none
  | r + 1, atEnd, pos =>
    match buf[pos]? with
    | none => Except.ok none
    | some b =>
      if atEnd then
        if b = 10 then Except.ok (some (pos + 1, (buf.drop idx).take (pos - 1 - idx)))
        else Except.error (parseError (sizeMsg b))
      else
        if b = 13 then scanILoop buf idx r true (pos + 1)
        else if 48 ≤ b ∧ b ≤ 57 then scanILoop buf idx r false (pos + 1)
        else Except.error (parseError (sizeMsg b))

/-- `scan_integer(buf, idx)`: scan a digit string terminated by `\r\n`
starting at `idx`; returns the position after the terminator and the
digit slice `buf[idx..pos-1]`, or `None` when the buffer ends first. -/
def scanInteger (buf : List Nat) (idx : Nat) :
    Except RError (Option (Nat × List Nat)) :=
  scanILoop buf idx (buf.length - idx) false idx

/-- The loop of `scan_string`, fuelled like `scanILoop`.  (Note the
`(true, _)` arm of the source resets `at_end` without re-examining the
byte.) -/
def scanSLoop (buf : List Nat) (idx : Nat) :
    Nat → Bool → Nat → Option (Nat × List Nat)
  | 0, _, _ => none
  | r + 1, atEnd, pos =>
    match buf[pos]? with
    | none => none
    | some b =>
      if atEnd then
        if b = 10 then some (pos + 1, fromUtf8Lossy ((buf.drop idx).take (pos - 1 - idx)))
        else scanSLoop buf idx r false (pos + 1)
      else
        if b = 13 then scanSLoop buf idx r true (pos + 1)
        else scanSLoop buf idx r false (pos + 1)

/-- `scan_string(buf, idx)`: scan arbitrary bytes up to the first
terminating `\r\n`, decoded lossily as UTF-8. -/
def scanString (buf : List Nat) (idx : Nat) : Option (Nat × List Nat) :=
  scanSLoop buf idx (buf.length - idx) false idx

/-- `decode_raw_integer`: scan the digit token and run
`str::from_utf8(..).expect(..).parse::<usize>().expect(..)` on it; both
`.expect`s panic exactly when `parsesToUsize` is false (empty token,
non-digit bytes, or overflow past `usize::MAX`). -/
def decodeRawInteger (buf : List Nat) (idx : Nat) : RawOut :=
  match scanInteger buf idx with
  | Except.error e => RawOut.err e
  | Except.ok none => RawOut.incomplete
  | Except.ok (some (pos, s)) =>
    if parsesToUsize s then RawOut.ok pos (parseDec s) else RawOut.panicked

/-- `decode_bulk_string`.  Note the source takes the `size + 2` bytes
after the length token without ever checking that the final two are
`\r\n`. -/
def decodeBulkString (buf : List Nat) (idx : Nat) : DecodeOut :=
  match decodeRawInteger buf idx with
  | RawOut.panicked => DecodeOut.panicked
  | RawOut.err e => DecodeOut.err e
  | RawOut.incomplete => DecodeOut.incomplete
  | RawOut.ok pos size =>
    let remaining := buf.length - pos
    let required := size + 2
    if remaining < required then DecodeOut.incomplete
    else DecodeOut.val (pos + required) (RespValue.BulkString ((buf.drop pos).take size))

/-- `decode_integer`. -/
def decodeInteger (buf : List Nat) (idx : Nat) : DecodeOut :=
  match decodeRawInteger buf idx with
  | RawOut.panicked => DecodeOut.panicked
  | RawOut.err e => DecodeOut.err e
  | RawOut.incomplete => DecodeOut.incomplete
  | RawOut.ok pos n => DecodeOut.val pos (RespValue.Integer n)

/-- `decode_simple_string`. -/
def decodeSimpleString (buf : List Nat) (idx : Nat) : DecodeOut :=
  match scanString buf idx with
  | none => DecodeOut.incomplete
  | some (pos, s) => DecodeOut.val pos (RespValue.SimpleString s)

/-- `decode_error`. -/
def decodeError (buf : List Nat) (idx : Nat) : DecodeOut :=
  match scanString buf idx with
  | none => DecodeOut.incomplete
  | some (pos, s) => DecodeOut.val pos (RespValue.Error s)

/-- Outcome of the element loop of `decode_array`. -/
inductive LoopOut where
  | panicked : LoopOut
  | err : RError → LoopOut
  | incomplete : LoopOut
  | done : Nat → List RespValue → LoopOut

/-- The `for _ in 0..size` loop of `decode_array`: decode `n` values in
sequence with the given element decoder, collecting them in order. -/
def arrayLoop (d : Nat → DecodeOut) : Nat → Nat → LoopOut
  | 0, pos => LoopOut.done pos []
  | n + 1, pos =>
    match d pos with
    | DecodeOut.panicked => LoopOut.panicked
    | DecodeOut.err e => LoopOut.err e
    | DecodeOut.incomplete => LoopOut.incomplete
    | DecodeOut.val newPos v =>
      match arrayLoop d n newPos with
      | LoopOut.panicked => LoopOut.panicked
      | LoopOut.err e => LoopOut.err e
      | LoopOut.incomplete => LoopOut.incomplete
      | LoopOut.done p vs => LoopOut.done p (v :: vs)

/-- `decode_array`, parametrised by the element decoder (which
`decodeF` instantiates with itself at smaller fuel).
`Vec::with_capacity(size)` only pre-allocates and has no effect on the
produced values, so it is not modelled (its possible allocation abort on
absurd sizes is subsumed by the panic findings on the same inputs). -/
def decodeArray (d : Nat → DecodeOut) (buf : List Nat) (idx : Nat) : DecodeOut :=
  match decodeRawInteger buf idx with
  | RawOut.panicked => DecodeOut.panicked
  | RawOut.err e => DecodeOut.err e
  | RawOut.incomplete => DecodeOut.incomplete
  | RawOut.ok pos size =>
    match arrayLoop d size pos with
    | LoopOut.panicked => DecodeOut.panicked
    | LoopOut.err e => DecodeOut.err e
    | LoopOut.incomplete => DecodeOut.incomplete
    | LoopOut.done p vs => DecodeOut.val p (RespValue.Array vs)

/-- `decode(buf, idx)`: dispatch on the tag byte.  The fuel argument
makes the source's recursion variant (each nested call starts at a
strictly larger index) explicit; `decodeTop` supplies sufficient fuel.
The `buf[idx]?` lookup is the source's `length <= idx` bounds check
followed by `buf[idx]`. -/
def decodeF : Nat → List Nat → Nat → DecodeOut
  | 0, _, _ => DecodeOut.incomplete
  | f + 1, buf, idx =>
    match buf[idx]? with
    | none => DecodeOut.incomplete
    | some 36 => decodeBulkString buf (idx + 1)
    | some 42 => decodeArray (decodeF f buf) buf (idx + 1)
    | some 58 => decodeInteger buf (idx + 1)
    | some 43 => decodeSimpleString buf (idx + 1)
    | some 45 => decodeError buf (idx + 1)
    | some b => DecodeOut.err (parseError (strBytes "Unexpected byte: " ++ natToDecBytes b))

/-- The top-level `decode(buf, 0)` with always-sufficient fuel. -/
def decodeTop (buf : List Nat) : DecodeOut := decodeF (buf.length + 1) buf 0

/-- The result type of `Decoder::decode for RespCodec`
(`Result<Option<RespValue>, Error>`, plus the panic outcome). -/
inductive CodecOut where
  | panicked : CodecOut
  | err : RError → CodecOut
  | incomplete : CodecOut
  | decoded : RespValue → CodecOut

/-- `Decoder::decode for RespCodec`: run `decode(buf, 0)`; on success
`buf.split_to(pos)` removes the consumed frame from the front, on any
other outcome the buffer is untouched.  Returns (result, buffer after
the call). -/
def codecDecode (buf : List Nat) : CodecOut × List Nat :=
  match decodeTop buf with
  | DecodeOut.panicked => (CodecOut.panicked, buf)
  | DecodeOut.err e => (CodecOut.err e, buf)
  | DecodeOut.incomplete => (CodecOut.incomplete, buf)
  | DecodeOut.val pos v => (CodecOut.decoded v, buf.drop pos)

/-! ## List helper lemmas -/

theorem dropGet {buf l : List Nat} {pos b : Nat} (h : buf.drop pos = b :: l) :
    buf[pos]? = some b := by
  have h0 : (buf.drop pos)[0]? = buf[pos + 0]? := List.getElem?_drop buf pos 0
  rw [h] at h0
  simpa using h0.symm

theorem dropSucc {buf l : List Nat} {pos b : Nat} (h : buf.drop pos = b :: l) :
    buf.drop (pos + 1) = l := by
  have : buf.drop (pos + 1) = (buf.drop pos).drop 1 := (List.drop_drop 1 pos buf).symm
  rw [this, h]
  rfl

theorem dropLen {buf l : List Nat} {pos : Nat} (h : buf.drop pos = l) :
    buf.length - pos = l.length := by
  have := List.length_drop pos buf
  rw [h] at this
  omega

/-! ## Decimal digit lemmas -/

/-- Value of a little-endian ASCII digit list. -/
def valLE : List Nat → Nat
  | [] => 0
  | d :: ds => (d - 48) + 10 * valLE ds

theorem decDigitsCore_val : ∀ f m, m ≤ f → valLE (decDigitsCore f m) = m := by
  intro f
  induction f with
  | zero => intro m hm; interval_cases m; simp [decDigitsCore, valLE]
  | succ f ih =>
    intro m hm
    by_cases h0 : m = 0
    · simp [decDigitsCore, h0, valLE]
    · have hd : m / 10 ≤ f := by omega
      simp only [decDigitsCore, h0, if_false, valLE, ih _ hd]
      omega

theorem decDigitsCore_digits : ∀ f m d, d ∈ decDigitsCore f m → 48 ≤ d ∧ d ≤ 57 := by
  intro f
  induction f with
  | zero => intro m d hd; simp [decDigitsCore] at hd
  | succ f ih =>
    intro m d hd
    by_cases h0 : m = 0
    · simp [decDigitsCore, h0] at hd
    · simp only [decDigitsCore, h0, if_false, List.mem_cons] at hd
      rcases hd with h | h
      · have : m % 10 < 10 := Nat.mod_lt _ (by norm_num)
        omega
      · exact ih _ _ h

theorem natToDecBytes_digits : ∀ n d, d ∈ natToDecBytes n → 48 ≤ d ∧ d ≤ 57 := by
  intro n d hd
  by_cases h0 : n = 0
  · simp [natToDecBytes, h0] at hd
    omega
  · simp only [natToDecBytes, h0, if_false, List.mem_reverse] at hd
    exact decDigitsCore_digits _ _ _ hd

theorem natToDecBytes_ne_nil (n : Nat) : natToDecBytes n ≠ [] := by
  cases n with
  | zero => simp [natToDecBytes]
  | succ m => simp [natToDecBytes, decDigitsCore]

theorem parseDec_acc_reverse :
    ∀ (ds : List Nat) (a : Nat),
      List.foldl (fun a d => a * 10 + (d - 48)) a ds.reverse
        = a * 10 ^ ds.length + valLE ds := by
  intro ds
  induction ds with
  | nil => intro a; simp [valLE]
  | cons d ds ih =>
    intro a
    simp only [List.reverse_cons, List.foldl_append, ih, List.foldl, valLE,
      List.length_cons]
    ring

theorem parseDec_natToDecBytes (n : Nat) : parseDec (natToDecBytes n) = n := by
  by_cases h0 : n = 0
  · simp [parseDec, natToDecBytes, h0]
  · simp only [parseDec, natToDecBytes, h0, if_false, parseDec_acc_reverse,
      Nat.zero_mul, Nat.zero_add]
    exact decDigitsCore_val n n le_rfl

theorem parsesToUsize_natToDecBytes {n : Nat} (h : n ≤ USIZE_MAX) :
    parsesToUsize (natToDecBytes n) = true := by
  have h1 : (natToDecBytes n).isEmpty = false := by
    cases hE : natToDecBytes n with
    | nil => exact absurd hE (natToDecBytes_ne_nil n)
    | cons d ds => rfl
  simp only [parsesToUsize, h1, Bool.not_false, Bool.true_and, Bool.and_eq_true,
    List.all_eq_true, decide_eq_true_eq]
  constructor
  · intro d hd
    have := natToDecBytes_digits n d hd
    omega
  · rw [parseDec_natToDecBytes]
    exact h

/-! ## UTF-8 lemmas -/

theorem utf8SeqLen_pos (l : List Nat) (k : Nat) (h : utf8SeqLen l = some k) :
    0 < k := by
  rcases l with _ | ⟨b, _ | ⟨c1, _ | ⟨c2, _ | ⟨c3, r⟩⟩⟩⟩ <;>
      simp only [utf8SeqLen] at h <;>
      (try split_ifs at h) <;>
      simp_all <;>
      omega

theorem lossyF_valid : ∀ f l, l.length ≤ f → utf8ValidF f l = true → lossyF f l = l := by
  intro f
  induction f with
  | zero =>
    intro l hl _
    have : l = [] := List.length_eq_zero.mp (Nat.le_zero.mp hl)
    subst this
    rfl
  | succ f ih =>
    intro l hl hv
    cases l with
    | nil => rfl
    | cons b t =>
      cases hs : utf8SeqLen (b :: t) with
      | none => simp [utf8ValidF, hs] at hv
      | some k =>
        have hk := utf8SeqLen_pos _ _ hs
        have hlen : ((b :: t).drop k).length ≤ f := by
          simp only [List.length_drop, List.length_cons]
          simp only [List.length_cons] at hl
          omega
        have hv' : utf8ValidF f ((b :: t).drop k) = true := by
          simpa [utf8ValidF, hs] using hv
        simp only [lossyF, hs]
        rw [ih _ hlen hv', List.take_append_drop]

/-- On a valid Rust `String`, lossy decoding is the identity. -/
theorem fromUtf8Lossy_valid {s : List Nat} (h : utf8Valid s = true) :
    fromUtf8Lossy s = s :=
  lossyF_valid s.length s le_rfl h

/-! ## `scan_integer` lemmas -/

theorem scanI_advance :
    ∀ (D buf : List Nat) (idx pos : Nat) (rest : List Nat),
      (∀ d ∈ D, 48 ≤ d ∧ d ≤ 57) →
      buf.drop pos = D ++ rest →
      scanILoop buf idx (buf.length - pos) false pos
        = scanILoop buf idx (buf.length - (pos + D.length)) false (pos + D.length) := by
  intro D
  induction D with
  | nil => intro buf idx pos rest _ _; simp
  | cons d D ih =>
    intro buf idx pos rest hd hdrop
    rw [List.cons_append] at hdrop
    have hget : buf[pos]? = some d := dropGet hdrop
    have hdrop' : buf.drop (pos + 1) = D ++ rest := dropSucc hdrop
    have hlen : buf.length - pos = (D ++ rest).length + 1 := by
      have := dropLen hdrop
      simpa using this
    rw [hlen]
    have hdig := hd d (by simp)
    have h13 : ¬ d = 13 := by omega
    simp only [scanILoop, hget, Bool.false_eq_true, if_false, h13, hdig, and_self,
      if_true, if_pos]
    have hlen2 : (D ++ rest).length = buf.length - (pos + 1) := by
      have := dropLen hdrop'
      omega
    rw [hlen2, ih buf idx (pos + 1) rest (fun x hx => hd x (by simp [hx])) hdrop']
    have he : pos + 1 + D.length = pos + (d :: D).length := by simp; omega
    rw [he]

theorem scanI_done (buf : List Nat) (idx pos : Nat) (rest : List Nat)
    (h : buf.drop pos = 13 :: 10 :: rest) :
    scanILoop buf idx (buf.length - pos) false pos
      = Except.ok (some (pos + 2, (buf.drop idx).take (pos - idx))) := by
  have hget : buf[pos]? = some 13 := dropGet h
  have hd1 : buf.drop (pos + 1) = 10 :: rest := dropSucc h
  have hget1 : buf[pos + 1]? = some 10 := dropGet hd1
  have hlen : buf.length - pos = (rest.length + 1) + 1 := by
    have := dropLen h
    simp at this
    omega
  rw [hlen]
  simp only [scanILoop, hget, hget1, Bool.false_eq_true, if_false, if_pos rfl,
    if_true]
  have : pos + 1 + 1 = pos + 2 := by omega
  rw [this]
  have : pos + 1 - 1 - idx = pos - idx := by omega
  rw [this]

theorem scanI_none_end (buf : List Nat) (idx pos : Nat)
    (h : buf.drop pos = []) :
    scanILoop buf idx (buf.length - pos) false pos = Except.ok none := by
  have hlen : buf.length - pos = 0 := by
    have := dropLen h
    simpa using this
  rw [hlen]
  rfl

theorem scanI_none_cr (buf : List Nat) (idx pos : Nat)
    (h : buf.drop pos = [13]) :
    scanILoop buf idx (buf.length - pos) false pos = Except.ok none := by
  have hget : buf[pos]? = some 13 := dropGet h
  have hd1 : buf.drop (pos + 1) = [] := dropSucc h
  have hlen : buf.length - pos = 0 + 1 := by
    have := dropLen h
    simpa using this
  rw [hlen]
  simp only [scanILoop, hget, Bool.false_eq_true, if_false, if_pos rfl]
  rfl

theorem scanI_err_byte (buf : List Nat) (idx pos b : Nat) (rest : List Nat)
    (h : buf.drop pos = b :: rest) (hnd : ¬ (48 ≤ b ∧ b ≤ 57)) (h13 : b ≠ 13) :
    scanILoop buf idx (buf.length - pos) false pos
      = Except.error (parseError (sizeMsg b)) := by
  have hget : buf[pos]? = some b := dropGet h
  have hlen : buf.length - pos = rest.length + 1 := by
    have := dropLen h
    simpa using this
  rw [hlen]
  simp only [scanILoop, hget, Bool.false_eq_true, if_false, if_neg h13, if_neg hnd]

theorem scanI_err_afterCR (buf : List Nat) (idx pos b : Nat) (rest : List Nat)
    (h : buf.drop pos = 13 :: b :: rest) (h10 : b ≠ 10) :
    scanILoop buf idx (buf.length - pos) false pos
      = Except.error (parseError (sizeMsg b)) := by
  have hget : buf[pos]? = some 13 := dropGet h
  have hd1 : buf.drop (pos + 1) = b :: rest := dropSucc h
  have hget1 : buf[pos + 1]? = some b := dropGet hd1
  have hlen : buf.length - pos = (rest.length + 1) + 1 := by
    have := dropLen h
    simp at this
    omega
  rw [hlen]
  simp only [scanILoop, hget, hget1, Bool.false_eq_true, if_false, if_pos rfl,
    if_true, if_neg h10]

/-! ### `scan_integer` at the token start -/

theorem scanInteger_found (buf D rest : List Nat) (idx : Nat)
    (hD : ∀ d ∈ D, 48 ≤ d ∧ d ≤ 57)
    (h : buf.drop idx = D ++ 13 :: 10 :: rest) :
    scanInteger buf idx = Except.ok (some (idx + D.length + 2, D)) := by
  unfold scanInteger
  have hdrop2 : buf.drop (idx + D.length) = 13 :: 10 :: rest := by
    have : buf.drop (idx + D.length) = (buf.drop idx).drop D.length := by
      rw [List.drop_drop]
    rw [this, h, List.drop_left]
  rw [scanI_advance D buf idx idx (13 :: 10 :: rest) hD h,
    scanI_done buf idx (idx + D.length) rest hdrop2]
  have h1 : idx + D.length - idx = D.length := by omega
  have h2 : idx + D.length + 2 = idx + D.length + 2 := rfl
  rw [h1, h, List.take_left]

theorem scanInteger_none_digits (buf D : List Nat) (idx : Nat)
    (hD : ∀ d ∈ D, 48 ≤ d ∧ d ≤ 57)
    (h : buf.drop idx = D) :
    scanInteger buf idx = Except.ok none := by
  unfold scanInteger
  have h' : buf.drop idx = D ++ [] := by simpa using h
  rw [scanI_advance D buf idx idx [] hD h']
  apply scanI_none_end
  have : buf.drop (idx + D.length) = (buf.drop idx).drop D.length := by
    rw [List.drop_drop]
  rw [this, h, List.drop_length]

theorem scanInteger_none_cr (buf D : List Nat) (idx : Nat)
    (hD : ∀ d ∈ D, 48 ≤ d ∧ d ≤ 57)
    (h : buf.drop idx = D ++ [13]) :
    scanInteger buf idx = Except.ok none := by
  unfold scanInteger
  rw [scanI_advance D buf idx idx [13] hD h]
  apply scanI_none_cr
  have : buf.drop (idx + D.length) = (buf.drop idx).drop D.length := by
    rw [List.drop_drop]
  rw [this, h, List.drop_left]

theorem scanInteger_err_byte (buf D rest : List Nat) (idx b : Nat)
    (hD : ∀ d ∈ D, 48 ≤ d ∧ d ≤ 57)
    (h : buf.drop idx = D ++ b :: rest)
    (hnd : ¬ (48 ≤ b ∧ b ≤ 57)) (h13 : b ≠ 13) :
    scanInteger buf idx = Except.error (parseError (sizeMsg b)) := by
  unfold scanInteger
  rw [scanI_advance D buf idx idx (b :: rest) hD h]
  refine scanI_err_byte buf idx (idx + D.length) b rest ?_ hnd h13
  have : buf.drop (idx + D.length) = (buf.drop idx).drop D.length := by
    rw [List.drop_drop]
  rw [this, h, List.drop_left]

theorem scanInteger_err_afterCR (buf D rest : List Nat) (idx b : Nat)
    (hD : ∀ d ∈ D, 48 ≤ d ∧ d ≤ 57)
    (h : buf.drop idx = D ++ 13 :: b :: rest) (h10 : b ≠ 10) :
    scanInteger buf idx = Except.error (parseError (sizeMsg b)) := by
  unfold scanInteger
  rw [scanI_advance D buf idx idx (13 :: b :: rest) hD h]
  refine scanI_err_afterCR buf idx (idx + D.length) b rest ?_ h10
  have : buf.drop (idx + D.length) = (buf.drop idx).drop D.length := by
    rw [List.drop_drop]
  rw [this, h, List.drop_left]

/-! ## `scan_string` lemmas -/

theorem scanS_advance :
    ∀ (T buf : List Nat) (idx pos : Nat) (rest : List Nat),
      (∀ b ∈ T, b ≠ 13) →
      buf.drop pos = T ++ rest →
      scanSLoop buf idx (buf.length - pos) false pos
        = scanSLoop buf idx (buf.length - (pos + T.length)) false (pos + T.length) := by
  intro T
  induction T with
  | nil => intro buf idx pos rest _ _; simp
  | cons t T ih =>
    intro buf idx pos rest ht hdrop
    rw [List.cons_append] at hdrop
    have hget : buf[pos]? = some t := dropGet hdrop
    have hdrop' : buf.drop (pos + 1) = T ++ rest := dropSucc hdrop
    have hlen : buf.length - pos = (T ++ rest).length + 1 := by
      have := dropLen hdrop
      simpa using this
    rw [hlen]
    have h13 : ¬ t = 13 := ht t (by simp)
    simp only [scanSLoop, hget, Bool.false_eq_true, if_false, h13]
    have hlen2 : (T ++ rest).length = buf.length - (pos + 1) := by
      have := dropLen hdrop'
      omega
    rw [hlen2, ih buf idx (pos + 1) rest (fun x hx => ht x (by simp [hx])) hdrop']
    have he : pos + 1 + T.length = pos + (t :: T).length := by simp; omega
    rw [he]

theorem scanS_done (buf : List Nat) (idx pos : Nat) (rest : List Nat)
    (h : buf.drop pos = 13 :: 10 :: rest) :
    scanSLoop buf idx (buf.length - pos) false pos
      = some (pos + 2, fromUtf8Lossy ((buf.drop idx).take (pos - idx))) := by
  have hget : buf[pos]? = some 13 := dropGet h
  have hd1 : buf.drop (pos + 1) = 10 :: rest := dropSucc h
  have hget1 : buf[pos + 1]? = some 10 := dropGet hd1
  have hlen : buf.length - pos = (rest.length + 1) + 1 := by
    have := dropLen h
    simp at this
    omega
  rw [hlen]
  simp only [scanSLoop, hget, hget1, Bool.false_eq_true, if_false, if_pos rfl,
    if_true]
  have h1 : pos + 1 + 1 = pos + 2 := by omega
  have h2 : pos + 1 - 1 - idx = pos - idx := by omega
  rw [h1, h2]

theorem scanS_none_end (buf : List Nat) (idx pos : Nat)
    (h : buf.drop pos = []) :
    scanSLoop buf idx (buf.length - pos) false pos = none := by
  have hlen : buf.length - pos = 0 := by
    have := dropLen h
    simpa using this
  rw [hlen]
  rfl

theorem scanS_none_cr (buf : List Nat) (idx pos : Nat)
    (h : buf.drop pos = [13]) :
    scanSLoop buf idx (buf.length - pos) false pos = none := by
  have hget : buf[pos]? = some 13 := dropGet h
  have hd1 : buf.drop (pos + 1) = [] := dropSucc h
  have hlen : buf.length - pos = 0 + 1 := by
    have := dropLen h
    simpa using this
  rw [hlen]
  simp only [scanSLoop, hget, Bool.false_eq_true, if_false, if_pos rfl]
  rfl

theorem scanString_found (buf T rest : List Nat) (idx : Nat)
    (hT : ∀ b ∈ T, b ≠ 13)
    (h : buf.drop idx = T ++ 13 :: 10 :: rest) :
    scanString buf idx = some (idx + T.length + 2, fromUtf8Lossy T) := by
  unfold scanString
  have hdrop2 : buf.drop (idx + T.length) = 13 :: 10 :: rest := by
    have : buf.drop (idx + T.length) = (buf.drop idx).drop T.length := by
      rw [List.drop_drop]
    rw [this, h, List.drop_left]
  rw [scanS_advance T buf idx idx (13 :: 10 :: rest) hT h,
    scanS_done buf idx (idx + T.length) rest hdrop2]
  have h1 : idx + T.length - idx = T.length := by omega
  rw [h1, h, List.take_left]

theorem scanString_none_text (buf T : List Nat) (idx : Nat)
    (hT : ∀ b ∈ T, b ≠ 13)
    (h : buf.drop idx = T) :
    scanString buf idx = none := by
  unfold scanString
  have h' : buf.drop idx = T ++ [] := by simpa using h
  rw [scanS_advance T buf idx idx [] hT h']
  apply scanS_none_end
  have : buf.drop (idx + T.length) = (buf.drop idx).drop T.length := by
    rw [List.drop_drop]
  rw [this, h, List.drop_length]

theorem scanString_none_cr (buf T : List Nat) (idx : Nat)
    (hT : ∀ b ∈ T, b ≠ 13)
    (h : buf.drop idx = T ++ [13]) :
    scanString buf idx = none := by
  unfold scanString
  rw [scanS_advance T buf idx idx [13] hT h]
  apply scanS_none_cr
  have : buf.drop (idx + T.length) = (buf.drop idx).drop T.length := by
    rw [List.drop_drop]
  rw [this, h, List.drop_left]

/-! ## `decode_raw_integer` lemmas -/

theorem decodeRawInteger_found (buf D rest : List Nat) (idx : Nat)
    (hD : ∀ d ∈ D, 48 ≤ d ∧ d ≤ 57) (hne : D ≠ [])
    (hmax : parseDec D ≤ USIZE_MAX)
    (h : buf.drop idx = D ++ 13 :: 10 :: rest) :
    decodeRawInteger buf idx = RawOut.ok (idx + D.length + 2) (parseDec D) := by
  unfold decodeRawInteger
  rw [scanInteger_found buf D rest idx hD h]
  have hp : parsesToUsize D = true := by
    have h1 : D.isEmpty = false := by
      cases D with
      | nil => exact absurd rfl hne
      | cons d ds => rfl
    simp only [parsesToUsize, h1, Bool.not_false, Bool.true_and, Bool.and_eq_true,
      List.all_eq_true, decide_eq_true_eq]
    exact ⟨fun d hd => by have := hD d hd; omega, hmax⟩
  dsimp only
  rw [hp]
  simp

theorem decodeRawInteger_enc (buf rest : List Nat) (idx n : Nat)
    (hmax : n ≤ USIZE_MAX)
    (h : buf.drop idx = natToDecBytes n ++ 13 :: 10 :: rest) :
    decodeRawInteger buf idx
      = RawOut.ok (idx + (natToDecBytes n).length + 2) n := by
  rw [decodeRawInteger_found buf (natToDecBytes n) rest idx
    (fun d hd => natToDecBytes_digits n d hd) (natToDecBytes_ne_nil n)
    (by rw [parseDec_natToDecBytes]; exact hmax) h,
    parseDec_natToDecBytes]

theorem decodeRawInteger_none_digits (buf D : List Nat) (idx : Nat)
    (hD : ∀ d ∈ D, 48 ≤ d ∧ d ≤ 57) (h : buf.drop idx = D) :
    decodeRawInteger buf idx = RawOut.incomplete := by
  unfold decodeRawInteger
  rw [scanInteger_none_digits buf D idx hD h]

theorem decodeRawInteger_none_cr (buf D : List Nat) (idx : Nat)
    (hD : ∀ d ∈ D, 48 ≤ d ∧ d ≤ 57) (h : buf.drop idx = D ++ [13]) :
    decodeRawInteger buf idx = RawOut.incomplete := by
  unfold decodeRawInteger
  rw [scanInteger_none_cr buf D idx hD h]

theorem decodeRawInteger_err_byte (buf D rest : List Nat) (idx b : Nat)
    (hD : ∀ d ∈ D, 48 ≤ d ∧ d ≤ 57)
    (h : buf.drop idx = D ++ b :: rest)
    (hnd : ¬ (48 ≤ b ∧ b ≤ 57)) (h13 : b ≠ 13) :
    decodeRawInteger buf idx = RawOut.err (parseError (sizeMsg b)) := by
  unfold decodeRawInteger
  rw [scanInteger_err_byte buf D rest idx b hD h hnd h13]

theorem decodeRawInteger_err_afterCR (buf D rest : List Nat) (idx b : Nat)
    (hD : ∀ d ∈ D, 48 ≤ d ∧ d ≤ 57)
    (h : buf.drop idx = D ++ 13 :: b :: rest) (h10 : b ≠ 10) :
    decodeRawInteger buf idx = RawOut.err (parseError (sizeMsg b)) := by
  unfold decodeRawInteger
  rw [scanInteger_err_afterCR buf D rest idx b hD h h10]

/-! ## Well-formedness predicates

`rustRepr` captures the invariants every in-memory Rust `RespValue`
satisfies: `String` fields are valid UTF-8, byte vectors hold bytes,
`Vec` lengths are bounded by `isize::MAX` (the allocation-size cap) and
`usize` values by `usize::MAX`.  `noCRLF` is the hypothesis of the
round-trip claims: `SimpleString`/`Error` texts contain no CR or LF at
any nesting depth. -/

mutual
/-- Rust-representability of a value (see section comment). -/
def rustRepr : RespValue → Bool
  | RespValue.Array l => decide (l.length ≤ ISIZE_MAX) && rustReprList l
  | RespValue.BulkString b =>
      decide (b.length ≤ ISIZE_MAX) && b.all (fun x => decide (x ≤ 255))
  | RespValue.Error s => utf8Valid s
  | RespValue.Integer n => decide (n ≤ USIZE_MAX)
  | RespValue.SimpleString s => utf8Valid s

/-- `rustRepr` on every element of a list. -/
def rustReprList : List RespValue → Bool
  | [] => true
  | v :: vs => rustRepr v && rustReprList vs
end

mutual
/-- No CR (13) or LF (10) byte in any `SimpleString`/`Error` text of the
value, at any nesting depth. -/
def noCRLF : RespValue → Bool
  | RespValue.Array l => noCRLFList l
  | RespValue.BulkString _ => true
  | RespValue.Error s => decide (13 ∉ s) && decide (10 ∉ s)
  | RespValue.Integer _ => true
  | RespValue.SimpleString s => decide (13 ∉ s) && decide (10 ∉ s)

/-- `noCRLF` on every element of a list. -/
def noCRLFList : List RespValue → Bool
  | [] => true
  | v :: vs => noCRLF v && noCRLFList vs
end

theorem rustReprList_mem {l : List RespValue} {v : RespValue}
    (h : rustReprList l = true) (hv : v ∈ l) : rustRepr v = true := by
  induction l with
  | nil => cases hv
  | cons w ws ih =>
    rw [rustReprList] at h
    simp only [Bool.and_eq_true] at h
    rcases List.mem_cons.mp hv with rfl | hm
    · exact h.1
    · exact ih h.2 hm

theorem noCRLFList_mem {l : List RespValue} {v : RespValue}
    (h : noCRLFList l = true) (hv : v ∈ l) : noCRLF v = true := by
  induction l with
  | nil => cases hv
  | cons w ws ih =>
    rw [noCRLFList] at h
    simp only [Bool.and_eq_true] at h
    rcases List.mem_cons.mp hv with rfl | hm
    · exact h.1
    · exact ih h.2 hm

/-! ## Encoder shape lemmas -/

/-- The encoding of each element of a list, concatenated in order. -/
def encL (l : List RespValue) : List Nat := encodeList l []

mutual
theorem encode_app (v : RespValue) (buf : List Nat) :
    encode v buf = buf ++ enc v := by
  cases v with
  | Array l =>
    simp only [enc, encode]
    rw [encodeList_app l (writeHeader 42 l.length buf),
      encodeList_app l (writeHeader 42 l.length [])]
    simp [writeHeader, writeRn]
  | BulkString b => simp [encode, enc, writeHeader, writeRn]
  | Error s => simp [encode, enc, writeSimpleString, writeRn]
  | Integer n => simp [encode, enc, writeHeader, writeRn]
  | SimpleString s => simp [encode, enc, writeSimpleString, writeRn]

theorem encodeList_app (l : List RespValue) (buf : List Nat) :
    encodeList l buf = buf ++ encodeList l [] := by
  cases l with
  | nil => simp [encodeList]
  | cons v vs =>
    simp only [encodeList]
    rw [encode_app v buf, encode_app v [],
      encodeList_app vs (buf ++ enc v), encodeList_app vs ([] ++ enc v)]
    simp
end

theorem encL_nil : encL [] = [] := by simp [encL, encodeList]

theorem encL_cons (v : RespValue) (vs : List RespValue) :
    encL (v :: vs) = enc v ++ encL vs := by
  simp only [encL, encodeList]
  rw [encodeList_app vs (encode v []), encode_app v []]
  simp

theorem enc_Integer (n : Nat) :
    enc (RespValue.Integer n) = 58 :: natToDecBytes n ++ [13, 10] := by
  simp [enc, encode, writeHeader, writeRn]

theorem enc_Bulk (b : List Nat) :
    enc (RespValue.BulkString b)
      = 36 :: natToDecBytes b.length ++ [13, 10] ++ b ++ [13, 10] := by
  simp [enc, encode, writeHeader, writeRn]

theorem enc_Simple (s : List Nat) :
    enc (RespValue.SimpleString s) = 43 :: s ++ [13, 10] := by
  simp [enc, encode, writeSimpleString, writeRn]

theorem enc_Err (s : List Nat) :
    enc (RespValue.Error s) = 45 :: s ++ [13, 10] := by
  simp [enc, encode, writeSimpleString, writeRn]

theorem enc_Array (l : List RespValue) :
    enc (RespValue.Array l)
      = 42 :: natToDecBytes l.length ++ [13, 10] ++ encL l := by
  simp only [enc, encode]
  rw [encodeList_app l (writeHeader 42 l.length [])]
  simp [writeHeader, writeRn, encL]

theorem enc_length_pos (v : RespValue) : 0 < (enc v).length := by
  cases v <;> simp [enc_Integer, enc_Bulk, enc_Simple, enc_Err, enc_Array]

/-! ## Decoding a full encoding (round trip, generalised) -/

theorem arrayLoop_encode :
    ∀ (l : List RespValue) (f : Nat) (P rest : List Nat),
      (∀ v ∈ l, ∀ (P' rest' : List Nat),
          (P' ++ enc v ++ rest').length + 1 - P'.length ≤ f →
          decodeF f (P' ++ enc v ++ rest') P'.length
            = DecodeOut.val (P'.length + (enc v).length) v) →
      (P ++ encL l ++ rest).length + 1 - P.length ≤ f →
      arrayLoop (decodeF f (P ++ encL l ++ rest)) l.length P.length
        = LoopOut.done (P.length + (encL l).length) l := by
  intro l
  induction l with
  | nil =>
    intro f P rest _ _
    simp [arrayLoop, encL_nil]
  | cons v vs ih =>
    intro f P rest H hf
    have hassoc : P ++ encL (v :: vs) ++ rest = P ++ enc v ++ (encL vs ++ rest) := by
      rw [encL_cons]
      simp
    rw [hassoc] at hf ⊢
    have h1 : decodeF f (P ++ enc v ++ (encL vs ++ rest)) P.length
        = DecodeOut.val (P.length + (enc v).length) v :=
      H v (by simp) P (encL vs ++ rest) hf
    have hassoc2 : P ++ enc v ++ (encL vs ++ rest) = (P ++ enc v) ++ encL vs ++ rest := by
      simp
    have h2 : arrayLoop (decodeF f (P ++ enc v ++ (encL vs ++ rest))) vs.length
        (P.length + (enc v).length)
        = LoopOut.done (P.length + (enc v).length + (encL vs).length) vs := by
      rw [hassoc2]
      have hlen : P.length + (enc v).length = (P ++ enc v).length := by simp
      rw [hlen]
      refine ih f (P ++ enc v) rest (fun w hw => H w (by simp [hw])) ?_
      rw [← hassoc2]
      simp only [List.length_append, List.length_cons, List.length_nil] at hf ⊢
      omega
    simp only [List.length_cons, arrayLoop, h1, h2]
    have he : P.length + (enc v).length + (encL vs).length
        = P.length + (encL (v :: vs)).length := by
      rw [encL_cons, List.length_append]
      omega
    rw [he]

theorem decodeF_enc_strong :
    ∀ (N : Nat) (v : RespValue), sizeOf v ≤ N →
      rustRepr v = true → noCRLF v = true →
      ∀ (f : Nat) (P rest : List Nat),
        (P ++ enc v ++ rest).length + 1 - P.length ≤ f →
        decodeF f (P ++ enc v ++ rest) P.length
          = DecodeOut.val (P.length + (enc v).length) v := by
  intro N
  induction N with
  | zero =>
    intro v hv
    exact absurd hv (by cases v <;> simp)
  | succ N IH =>
    intro v hsize hw hc f P rest hf
    obtain ⟨f', rfl⟩ : ∃ f', f = f' + 1 := by
      refine ⟨f - 1, ?_⟩
      simp only [List.length_append, List.length_cons, List.length_nil] at hf
      omega
    cases v with
    | Integer n =>
      have hmax : n ≤ USIZE_MAX := by simpa [rustRepr] using hw
      have hdrop : (P ++ enc (RespValue.Integer n) ++ rest).drop P.length
          = 58 :: (natToDecBytes n ++ 13 :: 10 :: rest) := by
        rw [List.append_assoc, List.drop_left, enc_Integer]
        simp
      have hget := dropGet hdrop
      have hdrop1 := dropSucc hdrop
      have hdri := decodeRawInteger_enc (P ++ enc (RespValue.Integer n) ++ rest)
        rest (P.length + 1) n hmax hdrop1
      simp only [decodeF, hget, decodeInteger, hdri]
      have he : P.length + 1 + (natToDecBytes n).length + 2
          = P.length + (enc (RespValue.Integer n)).length := by
        rw [enc_Integer]
        simp only [List.length_cons, List.length_append, List.length_nil]
        omega
      rw [he]
    | SimpleString s =>
      have hval : utf8Valid s = true := by simpa [rustRepr] using hw
      have hcr : 13 ∉ s ∧ 10 ∉ s := by simpa [noCRLF] using hc
      have hdrop : (P ++ enc (RespValue.SimpleString s) ++ rest).drop P.length
          = 43 :: (s ++ 13 :: 10 :: rest) := by
        rw [List.append_assoc, List.drop_left, enc_Simple]
        simp
      have hget := dropGet hdrop
      have hdrop1 := dropSucc hdrop
      have hscan := scanString_found (P ++ enc (RespValue.SimpleString s) ++ rest)
        s rest (P.length + 1) (fun b hb hbe => hcr.1 (hbe ▸ hb)) hdrop1
      simp only [decodeF, hget, decodeSimpleString, hscan, fromUtf8Lossy_valid hval]
      have he : P.length + 1 + s.length + 2
          = P.length + (enc (RespValue.SimpleString s)).length := by
        rw [enc_Simple]
        simp only [List.length_cons, List.length_append, List.length_nil]
        omega
      rw [he]
    | Error s =>
      have hval : utf8Valid s = true := by simpa [rustRepr] using hw
      have hcr : 13 ∉ s ∧ 10 ∉ s := by simpa [noCRLF] using hc
      have hdrop : (P ++ enc (RespValue.Error s) ++ rest).drop P.length
          = 45 :: (s ++ 13 :: 10 :: rest) := by
        rw [List.append_assoc, List.drop_left, enc_Err]
        simp
      have hget := dropGet hdrop
      have hdrop1 := dropSucc hdrop
      have hscan := scanString_found (P ++ enc (RespValue.Error s) ++ rest)
        s rest (P.length + 1) (fun b hb hbe => hcr.1 (hbe ▸ hb)) hdrop1
      simp only [decodeF, hget, decodeError, hscan, fromUtf8Lossy_valid hval]
      have he : P.length + 1 + s.length + 2
          = P.length + (enc (RespValue.Error s)).length := by
        rw [enc_Err]
        simp only [List.length_cons, List.length_append, List.length_nil]
        omega
      rw [he]
    | BulkString b =>
      have hblen : b.length ≤ ISIZE_MAX := by
        have := hw
        simp only [rustRepr, Bool.and_eq_true, decide_eq_true_eq] at this
        exact this.1
      have hmax : b.length ≤ USIZE_MAX := by
        have : ISIZE_MAX ≤ USIZE_MAX := by norm_num [ISIZE_MAX, USIZE_MAX]
        omega
      have hdrop : (P ++ enc (RespValue.BulkString b) ++ rest).drop P.length
          = 36 :: (natToDecBytes b.length ++ 13 :: 10 :: (b ++ 13 :: 10 :: rest)) := by
        rw [List.append_assoc, List.drop_left, enc_Bulk]
        simp
      have hget := dropGet hdrop
      have hdrop1 := dropSucc hdrop
      have hdri := decodeRawInteger_enc (P ++ enc (RespValue.BulkString b) ++ rest)
        (b ++ 13 :: 10 :: rest) (P.length + 1) b.length hmax hdrop1
      have hdropP : (P ++ enc (RespValue.BulkString b) ++ rest).drop
          (P.length + 1 + (natToDecBytes b.length).length + 2)
          = b ++ 13 :: 10 :: rest := by
        have h1 : P.length + 1 + (natToDecBytes b.length).length + 2
            = (P.length + 1) + ((natToDecBytes b.length).length + 2) := by omega
        rw [h1, ← List.drop_drop, hdrop1]
        have h2 : natToDecBytes b.length ++ 13 :: 10 :: (b ++ 13 :: 10 :: rest)
            = (natToDecBytes b.length ++ [13, 10]) ++ (b ++ 13 :: 10 :: rest) := by
          simp
        rw [h2]
        have h3 : (natToDecBytes b.length).length + 2
            = (natToDecBytes b.length ++ [13, 10]).length := by
          simp
        rw [h3, List.drop_left]
      have hrem : (P ++ enc (RespValue.BulkString b) ++ rest).length
          - (P.length + 1 + (natToDecBytes b.length).length + 2)
          = b.length + 2 + rest.length := by
        have := dropLen hdropP
        simp only [List.length_append, List.length_cons, List.length_nil] at this ⊢
        omega
      simp only [decodeF, hget, decodeBulkString, hdri, hrem]
      rw [if_neg (by omega : ¬ (b.length + 2 + rest.length < b.length + 2))]
      rw [hdropP]
      have htake : (b ++ 13 :: 10 :: rest).take b.length = b := List.take_left b _
      rw [htake]
      have he : P.length + 1 + (natToDecBytes b.length).length + 2 + (b.length + 2)
          = P.length + (enc (RespValue.BulkString b)).length := by
        rw [enc_Bulk]
        simp only [List.length_cons, List.length_append, List.length_nil]
        omega
      rw [he]
    | Array l =>
      have hw' : l.length ≤ ISIZE_MAX ∧ rustReprList l = true := by
        have := hw
        simp only [rustRepr, Bool.and_eq_true, decide_eq_true_eq] at this
        exact this
      have hc' : noCRLFList l = true := by simpa [noCRLF] using hc
      have hmax : l.length ≤ USIZE_MAX := by
        have : ISIZE_MAX ≤ USIZE_MAX := by norm_num [ISIZE_MAX, USIZE_MAX]
        omega
      have hdrop : (P ++ enc (RespValue.Array l) ++ rest).drop P.length
          = 42 :: (natToDecBytes l.length ++ 13 :: 10 :: (encL l ++ rest)) := by
        rw [List.append_assoc, List.drop_left, enc_Array]
        simp
      have hget := dropGet hdrop
      have hdrop1 := dropSucc hdrop
      have hdri := decodeRawInteger_enc (P ++ enc (RespValue.Array l) ++ rest)
        (encL l ++ rest) (P.length + 1) l.length hmax hdrop1
      have hsizel : sizeOf l ≤ N := by
        have : sizeOf (RespValue.Array l) = 1 + sizeOf l := by simp
        omega
      have HElem : ∀ w ∈ l, ∀ (P' rest' : List Nat),
          (P' ++ enc w ++ rest').length + 1 - P'.length ≤ f' →
          decodeF f' (P' ++ enc w ++ rest') P'.length
            = DecodeOut.val (P'.length + (enc w).length) w := by
        intro w hwm P' rest' hb
        have hsw : sizeOf w ≤ N := by
          have := List.sizeOf_lt_of_mem hwm
          omega
        exact IH w hsw (rustReprList_mem hw'.2 hwm) (noCRLFList_mem hc' hwm)
          f' P' rest' hb
      have hbufeq : P ++ enc (RespValue.Array l) ++ rest
          = (P ++ 42 :: (natToDecBytes l.length ++ [13, 10])) ++ encL l ++ rest := by
        rw [enc_Array]
        simp
      have hloop := arrayLoop_encode l f'
        (P ++ 42 :: (natToDecBytes l.length ++ [13, 10])) rest HElem (by
          rw [← hbufeq]
          simp only [List.length_append, List.length_cons, List.length_nil] at hf ⊢
          omega)
      rw [← hbufeq] at hloop
      have hplen : (P ++ 42 :: (natToDecBytes l.length ++ [13, 10])).length
          = P.length + 1 + (natToDecBytes l.length).length + 2 := by
        simp only [List.length_append, List.length_cons, List.length_nil]
        omega
      rw [hplen] at hloop
      simp only [decodeF, hget, decodeArray, hdri, hloop]
      have he : P.length + 1 + (natToDecBytes l.length).length + 2 + (encL l).length
          = P.length + (enc (RespValue.Array l)).length := by
        rw [enc_Array]
        simp only [List.length_cons, List.length_append, List.length_nil]
        omega
      rw [he]

/-- Decoding at the start of a full frame inside any context yields the
encoded value and advances exactly past its encoding. -/
theorem decodeF_enc (v : RespValue) (hw : rustRepr v = true)
    (hc : noCRLF v = true) (f : Nat) (P rest : List Nat)
    (hf : (P ++ enc v ++ rest).length + 1 - P.length ≤ f) :
    decodeF f (P ++ enc v ++ rest) P.length
      = DecodeOut.val (P.length + (enc v).length) v :=
  decodeF_enc_strong (sizeOf v) v le_rfl hw hc f P rest hf

/-! ## Decoding a strict prefix of an encoding is incomplete -/

theorem decodeF_end (f : Nat) (buf : List Nat) (idx : Nat)
    (h : buf.length ≤ idx) : decodeF (f + 1) buf idx = DecodeOut.incomplete := by
  simp only [decodeF, List.getElem?_eq_none h]

theorem decodeRawInteger_takeIncomplete (buf D : List Nat) (idx k : Nat)
    (hD : ∀ d ∈ D, 48 ≤ d ∧ d ≤ 57)
    (h : buf.drop idx = (D ++ [13, 10]).take k) (hk : k < D.length + 2) :
    decodeRawInteger buf idx = RawOut.incomplete := by
  by_cases hkd : k ≤ D.length
  · rw [List.take_append_of_le_length hkd] at h
    exact decodeRawInteger_none_digits buf (D.take k) idx
      (fun d hd => hD d (List.take_subset k D hd)) h
  · have hk1 : k = D.length + 1 := by omega
    rw [List.take_append_eq_append_take, List.take_of_length_le (by omega),
      hk1] at h
    have h13 : List.take (D.length + 1 - D.length) [13, 10] = [13] := by
      have : D.length + 1 - D.length = 1 := by omega
      rw [this]
      rfl
    rw [h13] at h
    exact decodeRawInteger_none_cr buf D idx hD h

theorem arrayLoop_cut :
    ∀ (l : List RespValue) (j f : Nat) (P : List Nat),
      (∀ v ∈ l, ∀ (P' rest' : List Nat),
          (P' ++ enc v ++ rest').length + 1 - P'.length ≤ f →
          decodeF f (P' ++ enc v ++ rest') P'.length
            = DecodeOut.val (P'.length + (enc v).length) v) →
      (∀ v ∈ l, ∀ (k : Nat) (P' : List Nat), k < (enc v).length →
          (P' ++ (enc v).take k).length + 1 - P'.length ≤ f →
          decodeF f (P' ++ (enc v).take k) P'.length = DecodeOut.incomplete) →
      j < (encL l).length →
      (P ++ (encL l).take j).length + 1 - P.length ≤ f →
      arrayLoop (decodeF f (P ++ (encL l).take j)) l.length P.length
        = LoopOut.incomplete := by
  intro l
  induction l with
  | nil =>
    intro j f P _ _ hj _
    rw [encL_nil] at hj
    simp at hj
  | cons v vs ih =>
    intro j f P HA HB hj hf
    by_cases hjv : j < (enc v).length
    · have htake : (encL (v :: vs)).take j = (enc v).take j := by
        rw [encL_cons]
        exact List.take_append_of_le_length (Nat.le_of_lt hjv)
      rw [htake] at hf ⊢
      simp only [List.length_cons, arrayLoop, HB v (by simp) j P hjv hf]
    · have htake : (encL (v :: vs)).take j
          = enc v ++ (encL vs).take (j - (enc v).length) := by
        rw [encL_cons, List.take_append_eq_append_take,
          List.take_of_length_le (by omega)]
      rw [htake] at hf ⊢
      have hassoc : P ++ (enc v ++ (encL vs).take (j - (enc v).length))
          = P ++ enc v ++ (encL vs).take (j - (enc v).length) := by simp
      rw [hassoc] at hf ⊢
      have h1 : decodeF f (P ++ enc v ++ (encL vs).take (j - (enc v).length))
          P.length = DecodeOut.val (P.length + (enc v).length) v :=
        HA v (by simp) P _ hf
      have hj' : j - (enc v).length < (encL vs).length := by
        rw [encL_cons, List.length_append] at hj
        omega
      have h2 : arrayLoop (decodeF f (P ++ enc v ++ (encL vs).take
          (j - (enc v).length))) vs.length (P.length + (enc v).length)
          = LoopOut.incomplete := by
        have hassoc2 : P ++ enc v ++ (encL vs).take (j - (enc v).length)
            = (P ++ enc v) ++ (encL vs).take (j - (enc v).length) := by simp
        rw [hassoc2]
        have hlen : P.length + (enc v).length = (P ++ enc v).length := by simp
        rw [hlen]
        refine ih (j - (enc v).length) f (P ++ enc v)
          (fun w hw => HA w (by simp [hw])) (fun w hw => HB w (by simp [hw]))
          hj' ?_
        rw [← hassoc2]
        simp only [List.length_append] at hf ⊢
        omega
      simp only [List.length_cons, arrayLoop, h1, h2]

theorem decodeF_cut_strong :
    ∀ (N : Nat) (v : RespValue), sizeOf v ≤ N →
      rustRepr v = true → noCRLF v = true →
      ∀ (k f : Nat) (P : List Nat), k < (enc v).length →
        (P ++ (enc v).take k).length + 1 - P.length ≤ f →
        decodeF f (P ++ (enc v).take k) P.length = DecodeOut.incomplete := by
  intro N
  induction N with
  | zero =>
    intro v hv
    exact absurd hv (by cases v <;> simp)
  | succ N IH =>
    intro v hsize hw hc k f P hk hf
    obtain ⟨f', rfl⟩ : ∃ f', f = f' + 1 := by
      refine ⟨f - 1, ?_⟩
      simp only [List.length_append] at hf
      omega
    by_cases hk0 : k = 0
    · subst hk0
      apply decodeF_end
      simp
    · obtain ⟨k', rfl⟩ : ∃ k', k = k' + 1 := ⟨k - 1, by omega⟩
      cases v with
      | Integer n =>
        rw [enc_Integer] at hk hf ⊢
        simp only [List.cons_append] at hk hf ⊢
        rw [List.take_succ_cons] at hf ⊢
        have hdrop : (P ++ 58 :: (natToDecBytes n ++ [13, 10]).take k').drop P.length
            = 58 :: (natToDecBytes n ++ [13, 10]).take k' := by
          rw [List.drop_left]
        have hget := dropGet hdrop
        have hdrop1 := dropSucc hdrop
        have hdri := decodeRawInteger_takeIncomplete _ (natToDecBytes n)
          (P.length + 1) k' (fun d hd => natToDecBytes_digits n d hd) hdrop1 (by
            simp only [List.length_cons, List.length_append, List.length_nil] at hk
            omega)
        simp only [decodeF, hget, decodeInteger, hdri]
      | SimpleString s =>
        have hcr : 13 ∉ s ∧ 10 ∉ s := by simpa [noCRLF] using hc
        rw [enc_Simple] at hk hf ⊢
        simp only [List.cons_append] at hk hf ⊢
        rw [List.take_succ_cons] at hf ⊢
        have hdrop : (P ++ 43 :: (s ++ [13, 10]).take k').drop P.length
            = 43 :: (s ++ [13, 10]).take k' := by
          rw [List.drop_left]
        have hget := dropGet hdrop
        have hdrop1 := dropSucc hdrop
        have hscan : scanString (P ++ 43 :: (s ++ [13, 10]).take k') (P.length + 1)
            = none := by
          by_cases hks : k' ≤ s.length
          · have hdropT : (P ++ 43 :: (s ++ [13, 10]).take k').drop (P.length + 1)
                = s.take k' := by
              rw [hdrop1, List.take_append_of_le_length hks]
            exact scanString_none_text _ (s.take k') (P.length + 1)
              (fun b hb hbe => hcr.1 (hbe ▸ List.take_subset k' s hb)) hdropT
          · have hk1 : k' = s.length + 1 := by
              simp only [List.length_cons, List.length_append, List.length_nil] at hk
              omega
            have hdropT : (P ++ 43 :: (s ++ [13, 10]).take k').drop (P.length + 1)
                = s ++ [13] := by
              rw [hdrop1, List.take_append_eq_append_take,
                List.take_of_length_le (by omega), hk1]
              have h1 : s.length + 1 - s.length = 1 := by omega
              rw [h1]
              rfl
            exact scanString_none_cr _ s (P.length + 1)
              (fun b hb hbe => hcr.1 (hbe ▸ hb)) hdropT
        simp only [decodeF, hget, decodeSimpleString, hscan]
      | Error s =>
        have hcr : 13 ∉ s ∧ 10 ∉ s := by simpa [noCRLF] using hc
        rw [enc_Err] at hk hf ⊢
        simp only [List.cons_append] at hk hf ⊢
        rw [List.take_succ_cons] at hf ⊢
        have hdrop : (P ++ 45 :: (s ++ [13, 10]).take k').drop P.length
            = 45 :: (s ++ [13, 10]).take k' := by
          rw [List.drop_left]
        have hget := dropGet hdrop
        have hdrop1 := dropSucc hdrop
        have hscan : scanString (P ++ 45 :: (s ++ [13, 10]).take k') (P.length + 1)
            = none := by
          by_cases hks : k' ≤ s.length
          · have hdropT : (P ++ 45 :: (s ++ [13, 10]).take k').drop (P.length + 1)
                = s.take k' := by
              rw [hdrop1, List.take_append_of_le_length hks]
            exact scanString_none_text _ (s.take k') (P.length + 1)
              (fun b hb hbe => hcr.1 (hbe ▸ List.take_subset k' s hb)) hdropT
          · have hk1 : k' = s.length + 1 := by
              simp only [List.length_cons, List.length_append, List.length_nil] at hk
              omega
            have hdropT : (P ++ 45 :: (s ++ [13, 10]).take k').drop (P.length + 1)
                = s ++ [13] := by
              rw [hdrop1, List.take_append_eq_append_take,
                List.take_of_length_le (by omega), hk1]
              have h1 : s.length + 1 - s.length = 1 := by omega
              rw [h1]
              rfl
            exact scanString_none_cr _ s (P.length + 1)
              (fun b hb hbe => hcr.1 (hbe ▸ hb)) hdropT
        simp only [decodeF, hget, decodeError, hscan]
      | BulkString b =>
        have hblen : b.length ≤ ISIZE_MAX := by
          have := hw
          simp only [rustRepr, Bool.and_eq_true, decide_eq_true_eq] at this
          exact this.1
        have hmax : b.length ≤ USIZE_MAX := by
          have : ISIZE_MAX ≤ USIZE_MAX := by norm_num [ISIZE_MAX, USIZE_MAX]
          omega
        have hencB : enc (RespValue.BulkString b)
            = 36 :: ((natToDecBytes b.length ++ [13, 10]) ++ (b ++ [13, 10])) := by
          rw [enc_Bulk]
          simp
        rw [hencB] at hk hf ⊢
        rw [List.take_succ_cons] at hf ⊢
        have hdrop : (P ++ 36 :: ((natToDecBytes b.length ++ [13, 10])
            ++ (b ++ [13, 10])).take k').drop P.length
            = 36 :: ((natToDecBytes b.length ++ [13, 10]) ++ (b ++ [13, 10])).take k' := by
          rw [List.drop_left]
        have hget := dropGet hdrop
        have hdrop1 := dropSucc hdrop
        by_cases hkd : k' < (natToDecBytes b.length).length + 2
        · have hdropT : (P ++ 36 :: ((natToDecBytes b.length ++ [13, 10])
              ++ (b ++ [13, 10])).take k').drop (P.length + 1)
              = (natToDecBytes b.length ++ [13, 10]).take k' := by
            rw [hdrop1]
            refine List.take_append_of_le_length ?_
            simp only [List.length_append, List.length_cons, List.length_nil]
            omega
          have hdri := decodeRawInteger_takeIncomplete _ (natToDecBytes b.length)
            (P.length + 1) k' (fun d hd => natToDecBytes_digits _ d hd) hdropT hkd
          simp only [decodeF, hget, decodeBulkString, hdri]
        · have hDlen : (natToDecBytes b.length ++ [13, 10]).length
              = (natToDecBytes b.length).length + 2 := by
            simp
          have hdropT : (P ++ 36 :: ((natToDecBytes b.length ++ [13, 10])
              ++ (b ++ [13, 10])).take k').drop (P.length + 1)
              = natToDecBytes b.length ++ 13 :: 10 ::
                ((b ++ [13, 10]).take (k' - ((natToDecBytes b.length).length + 2))) := by
            rw [hdrop1, List.take_append_eq_append_take,
              List.take_of_length_le (by rw [hDlen]; omega), hDlen]
            simp
          have hdri := decodeRawInteger_enc _
            ((b ++ [13, 10]).take (k' - ((natToDecBytes b.length).length + 2)))
            (P.length + 1) b.length hmax hdropT
          have hrem : (P ++ 36 :: ((natToDecBytes b.length ++ [13, 10])
              ++ (b ++ [13, 10])).take k').length
              - (P.length + 1 + (natToDecBytes b.length).length + 2)
              = k' - ((natToDecBytes b.length).length + 2) := by
            simp only [List.length_append, List.length_cons, List.length_take,
              List.length_nil] at hk ⊢
            omega
          have hsmall : k' - ((natToDecBytes b.length).length + 2) < b.length + 2 := by
            simp only [List.length_cons, List.length_append, List.length_nil] at hk
            omega
          simp only [decodeF, hget, decodeBulkString, hdri, hrem]
          rw [if_pos hsmall]
      | Array l =>
        have hw2 : l.length ≤ ISIZE_MAX ∧ rustReprList l = true := by
          have := hw
          simp only [rustRepr, Bool.and_eq_true, decide_eq_true_eq] at this
          exact this
        have hc2 : noCRLFList l = true := by simpa [noCRLF] using hc
        have hmax : l.length ≤ USIZE_MAX := by
          have : ISIZE_MAX ≤ USIZE_MAX := by norm_num [ISIZE_MAX, USIZE_MAX]
          omega
        have hencA : enc (RespValue.Array l)
            = 42 :: ((natToDecBytes l.length ++ [13, 10]) ++ encL l) := by
          rw [enc_Array]
          simp
        rw [hencA] at hk hf ⊢
        rw [List.take_succ_cons] at hf ⊢
        have hdrop : (P ++ 42 :: ((natToDecBytes l.length ++ [13, 10])
            ++ encL l).take k').drop P.length
            = 42 :: ((natToDecBytes l.length ++ [13, 10]) ++ encL l).take k' := by
          rw [List.drop_left]
        have hget := dropGet hdrop
        have hdrop1 := dropSucc hdrop
        by_cases hkd : k' < (natToDecBytes l.length).length + 2
        · have hdropT : (P ++ 42 :: ((natToDecBytes l.length ++ [13, 10])
              ++ encL l).take k').drop (P.length + 1)
              = (natToDecBytes l.length ++ [13, 10]).take k' := by
            rw [hdrop1]
            refine List.take_append_of_le_length ?_
            simp only [List.length_append, List.length_cons, List.length_nil]
            omega
          have hdri := decodeRawInteger_takeIncomplete _ (natToDecBytes l.length)
            (P.length + 1) k' (fun d hd => natToDecBytes_digits _ d hd) hdropT hkd
          simp only [decodeF, hget, decodeArray, hdri]
        · have hDlen : (natToDecBytes l.length ++ [13, 10]).length
              = (natToDecBytes l.length).length + 2 := by
            simp
          have hdropT : (P ++ 42 :: ((natToDecBytes l.length ++ [13, 10])
              ++ encL l).take k').drop (P.length + 1)
              = natToDecBytes l.length ++ 13 :: 10 ::
                ((encL l).take (k' - ((natToDecBytes l.length).length + 2))) := by
            rw [hdrop1, List.take_append_eq_append_take,
              List.take_of_length_le (by rw [hDlen]; omega), hDlen]
            simp
          have hdri := decodeRawInteger_enc _
            ((encL l).take (k' - ((natToDecBytes l.length).length + 2)))
            (P.length + 1) l.length hmax hdropT
          have HA : ∀ w ∈ l, ∀ (P' rest' : List Nat),
              (P' ++ enc w ++ rest').length + 1 - P'.length ≤ f' →
              decodeF f' (P' ++ enc w ++ rest') P'.length
                = DecodeOut.val (P'.length + (enc w).length) w := by
            intro w hwm P' rest' hb
            exact decodeF_enc w (rustReprList_mem hw2.2 hwm)
              (noCRLFList_mem hc2 hwm) f' P' rest' hb
          have HB : ∀ w ∈ l, ∀ (kk : Nat) (P' : List Nat), kk < (enc w).length →
              (P' ++ (enc w).take kk).length + 1 - P'.length ≤ f' →
              decodeF f' (P' ++ (enc w).take kk) P'.length
                = DecodeOut.incomplete := by
            intro w hwm kk P' hkk hb
            have hsw : sizeOf w ≤ N := by
              have h1 := List.sizeOf_lt_of_mem hwm
              have h2 : sizeOf (RespValue.Array l) = 1 + sizeOf l := by simp
              omega
            exact IH w hsw (rustReprList_mem hw2.2 hwm) (noCRLFList_mem hc2 hwm)
              kk f' P' hkk hb
          have hj2 : k' - ((natToDecBytes l.length).length + 2) < (encL l).length := by
            simp only [List.length_cons, List.length_append, List.length_nil] at hk
            omega
          have hbufeq : P ++ 42 :: ((natToDecBytes l.length ++ [13, 10]) ++ encL l).take k'
              = (P ++ 42 :: (natToDecBytes l.length ++ [13, 10]))
                ++ (encL l).take (k' - ((natToDecBytes l.length).length + 2)) := by
            rw [List.take_append_eq_append_take,
              List.take_of_length_le (by rw [hDlen]; omega), hDlen]
            simp
          have hloop := arrayLoop_cut l (k' - ((natToDecBytes l.length).length + 2))
            f' (P ++ 42 :: (natToDecBytes l.length ++ [13, 10])) HA HB hj2 (by
              rw [← hbufeq]
              simp only [List.length_append, List.length_cons] at hf ⊢
              omega)
          rw [← hbufeq] at hloop
          have hplen : (P ++ 42 :: (natToDecBytes l.length ++ [13, 10])).length
              = P.length + 1 + (natToDecBytes l.length).length + 2 := by
            simp only [List.length_append, List.length_cons, List.length_nil]
            omega
          rw [hplen] at hloop
          simp only [decodeF, hget, decodeArray, hdri, hloop]

/-- Decoding any strict non-empty-to-missing prefix of an encoding, with
the buffer ending at the cut, reports incomplete. -/
theorem decodeF_cut (v : RespValue) (hw : rustRepr v = true)
    (hc : noCRLF v = true) (k f : Nat) (P : List Nat)
    (hk : k < (enc v).length)
    (hf : (P ++ (enc v).take k).length + 1 - P.length ≤ f) :
    decodeF f (P ++ (enc v).take k) P.length = DecodeOut.incomplete :=
  decodeF_cut_strong (sizeOf v) v le_rfl hw hc k f P hk hf

/-! ## Error-path lemmas at the top level -/

theorem encL_join (l : List RespValue) : encL l = (l.map enc).flatten := by
  induction l with
  | nil => simp [encL_nil]
  | cons v vs ih => simp [encL_cons, ih]

theorem decodeTop_cons_getq (b : Nat) (rest : List Nat) :
    (b :: rest)[0]? = some b := by simp

theorem dropOne_cons (b : Nat) (rest : List Nat) : (b :: rest).drop 1 = rest := rfl

/-! ## The claims -/

/-- C1: for every RespValue `v` whose SimpleString and Error texts
contain no CR or LF at any nesting depth (`noCRLF v`; `rustRepr v` is
the invariant any in-memory Rust value satisfies), encoding `v` into an
empty buffer and then decoding that buffer yields exactly `v` back,
consuming the entire encoding. -/
theorem claim1_roundtrip (v : RespValue) (hw : rustRepr v = true)
    (hc : noCRLF v = true) :
    decodeTop (encode v []) = DecodeOut.val (encode v []).length v
    ∧ codecDecode (encode v []) = (CodecOut.decoded v, []) := by
  have henc : encode v [] = enc v := rfl
  have h0 := decodeF_enc v hw hc ((enc v).length + 1) [] [] (by simp)
  simp only [List.nil_append, List.append_nil, List.length_nil, Nat.zero_add] at h0
  have h1 : decodeTop (encode v []) = DecodeOut.val (encode v []).length v := by
    rw [henc, decodeTop]
    exact h0
  refine ⟨h1, ?_⟩
  rw [codecDecode, h1, henc]
  dsimp only
  rw [List.drop_length]

/-- Witness for C1 at the value `Array [BulkString "TEST1", BulkString
"TEST2"]` of the spec's scenario 2. -/
theorem claim1_roundtrip_witness :
    decodeTop (encode (RespValue.Array [RespValue.BulkString (strBytes "TEST1"),
        RespValue.BulkString (strBytes "TEST2")]) [])
      = DecodeOut.val (encode (RespValue.Array [RespValue.BulkString (strBytes "TEST1"),
        RespValue.BulkString (strBytes "TEST2")]) []).length
        (RespValue.Array [RespValue.BulkString (strBytes "TEST1"),
        RespValue.BulkString (strBytes "TEST2")])
    ∧ codecDecode (encode (RespValue.Array [RespValue.BulkString (strBytes "TEST1"),
        RespValue.BulkString (strBytes "TEST2")]) [])
      = (CodecOut.decoded (RespValue.Array [RespValue.BulkString (strBytes "TEST1"),
        RespValue.BulkString (strBytes "TEST2")]), []) :=
  claim1_roundtrip _
    (by simp only [rustRepr, rustReprList] <;> decide)
    (by simp only [noCRLF, noCRLFList] <;> decide)

/-- C2: splitting the valid encoding of any (well-formed, no-CR/LF)
value into two non-empty chunks, the codec decode on chunk 1 alone is
incomplete with the buffer unchanged (zero bytes consumed), and decode
after appending chunk 2 yields the original value consuming exactly the
length a whole-buffer decode consumes. -/
theorem claim2_partial_delivery (v : RespValue) (hw : rustRepr v = true)
    (hc : noCRLF v = true) (c1 c2 : List Nat)
    (hsplit : c1 ++ c2 = encode v []) (hne1 : c1 ≠ []) (hne2 : c2 ≠ []) :
    codecDecode c1 = (CodecOut.incomplete, c1)
    ∧ codecDecode (c1 ++ c2) = (CodecOut.decoded v, [])
    ∧ decodeTop (c1 ++ c2) = DecodeOut.val (encode v []).length v := by
  have henc : encode v [] = enc v := rfl
  have hc1 : c1 = (enc v).take c1.length := by
    rw [← henc, ← hsplit, List.take_left]
  have hlt : c1.length < (enc v).length := by
    have hlen : (enc v).length = c1.length + c2.length := by
      rw [← henc, ← hsplit, List.length_append]
    have : c2.length ≠ 0 := fun h => hne2 (List.length_eq_zero.mp h)
    omega
  have hcut := decodeF_cut v hw hc c1.length (c1.length + 1) [] hlt (by simp)
  simp only [List.nil_append, List.length_nil, Nat.zero_add] at hcut
  rw [← hc1] at hcut
  have hfuel : c1.length + 1 = c1.length + 1 := rfl
  have hinc : decodeTop c1 = DecodeOut.incomplete := by
    rw [decodeTop]
    exact hcut
  have hfull := claim1_roundtrip v hw hc
  rw [← hsplit] at hfull
  rw [← hsplit]
  exact ⟨by rw [codecDecode, hinc], hfull.2, hfull.1⟩

/-- Witness for C2: scenario 3 of the spec, `$5\r\nHE` then `LLO\r\n`. -/
theorem claim2_partial_delivery_witness :
    codecDecode [36, 53, 13, 10, 72, 69] = (CodecOut.incomplete, [36, 53, 13, 10, 72, 69])
    ∧ codecDecode ([36, 53, 13, 10, 72, 69] ++ [76, 76, 79, 13, 10])
      = (CodecOut.decoded (RespValue.BulkString (strBytes "HELLO")), [])
    ∧ decodeTop ([36, 53, 13, 10, 72, 69] ++ [76, 76, 79, 13, 10])
      = DecodeOut.val (encode (RespValue.BulkString (strBytes "HELLO")) []).length
        (RespValue.BulkString (strBytes "HELLO")) :=
  claim2_partial_delivery (RespValue.BulkString (strBytes "HELLO"))
    (by simp only [rustRepr] <;> decide)
    (by simp only [noCRLF] <;> decide)
    [36, 53, 13, 10, 72, 69] [76, 76, 79, 13, 10]
    (by rw [show encode (RespValue.BulkString (strBytes "HELLO")) []
        = enc (RespValue.BulkString (strBytes "HELLO")) from rfl, enc_Bulk]; decide)
    (by decide) (by decide)

/-- C3 is a code bug: the claim (and the spec) say a decode call always
terminates with a value, the incomplete signal, or a typed failure and
never panics, but `decode_raw_integer` calls
`.parse().expect("Not an integer")`, which panics on the empty length
token of `:\r\n` and on numeric tokens exceeding `usize::MAX` such as
`:18446744073709551616\r\n`. -/
theorem claim3_panic_on_empty_or_overflow_token :
    decodeTop [58, 13, 10] = DecodeOut.panicked
    ∧ decodeTop [58, 49, 56, 52, 52, 54, 55, 52, 52, 48, 55, 51, 55, 48,
        57, 53, 53, 49, 54, 49, 54, 13, 10] = DecodeOut.panicked
    ∧ codecDecode [58, 13, 10] = (CodecOut.panicked, [58, 13, 10]) :=
  ⟨rfl, rfl, rfl⟩

/-- C5: extracting any of the four target types from `Error("boom")`
via `from_resp` yields a remote failure carrying "boom"; the collapse
happens in `to_result` before any type-specific rule runs. -/
theorem claim5_error_collapse :
    fromRespRespValue (RespValue.Error (strBytes "boom"))
      = Except.error (RError.Remote (strBytes "boom"))
    ∧ fromRespString (RespValue.Error (strBytes "boom"))
      = Except.error (RError.Remote (strBytes "boom"))
    ∧ fromRespUsize (RespValue.Error (strBytes "boom"))
      = Except.error (RError.Remote (strBytes "boom"))
    ∧ fromRespUnit (RespValue.Error (strBytes "boom"))
      = Except.error (RError.Remote (strBytes "boom"))
    ∧ (∀ s : List Nat, toResult (RespValue.Error s)
        = Except.error (RError.Remote s)) :=
  ⟨rfl, rfl, rfl, rfl, fun _ => rfl⟩

/-- Counterexample to C4 as stated: the two bytes after a bulk-string
payload are required by the claim to be validated as `\r\n`, with any
malformation yielding a typed parse failure; but on `$1\r\nAXY`
(payload `A` terminated by `XY`, not `\r\n`) decode returns a value,
consuming all 7 bytes. -/
theorem claim4_counterexample :
    decodeTop [36, 49, 13, 10, 65, 88, 89]
      = DecodeOut.val 7 (RespValue.BulkString [65]) := rfl

/-- C4 (amended): every malformed digit and every malformed CR/LF
sequencing inside the length token after a `$`, `*` or `:` tag makes
decode return a typed parse failure (never a value, never incomplete);
however the two bytes that terminate a bulk-string payload are not
validated (see the counterexample). -/
theorem claim4_amended_size_token_failures :
    (∀ (t : Nat), (t = 36 ∨ t = 42 ∨ t = 58) →
      ∀ (ds : List Nat) (b : Nat) (rest : List Nat),
        (∀ d ∈ ds, 48 ≤ d ∧ d ≤ 57) → ¬ (48 ≤ b ∧ b ≤ 57) → b ≠ 13 →
        decodeTop (t :: (ds ++ b :: rest))
          = DecodeOut.err (parseError (sizeMsg b)))
    ∧ (∀ (t : Nat), (t = 36 ∨ t = 42 ∨ t = 58) →
      ∀ (ds : List Nat) (b : Nat) (rest : List Nat),
        (∀ d ∈ ds, 48 ≤ d ∧ d ≤ 57) → b ≠ 10 →
        decodeTop (t :: (ds ++ 13 :: b :: rest))
          = DecodeOut.err (parseError (sizeMsg b))) := by
  constructor
  · intro t ht ds b rest hds hnd h13
    have hget := decodeTop_cons_getq t (ds ++ b :: rest)
    have hdrop1 : (t :: (ds ++ b :: rest)).drop 1 = ds ++ b :: rest := rfl
    have hdri := decodeRawInteger_err_byte (t :: (ds ++ b :: rest)) ds rest 1 b
      hds hdrop1 hnd h13
    rcases ht with rfl | rfl | rfl
    · simp only [decodeTop, decodeF, hget, decodeBulkString, hdri]
    · simp only [decodeTop, decodeF, hget, decodeArray, hdri]
    · simp only [decodeTop, decodeF, hget, decodeInteger, hdri]
  · intro t ht ds b rest hds h10
    have hget := decodeTop_cons_getq t (ds ++ 13 :: b :: rest)
    have hdrop1 : (t :: (ds ++ 13 :: b :: rest)).drop 1 = ds ++ 13 :: b :: rest := rfl
    have hdri := decodeRawInteger_err_afterCR (t :: (ds ++ 13 :: b :: rest)) ds rest 1 b
      hds hdrop1 h10
    rcases ht with rfl | rfl | rfl
    · simp only [decodeTop, decodeF, hget, decodeBulkString, hdri]
    · simp only [decodeTop, decodeF, hget, decodeArray, hdri]
    · simp only [decodeTop, decodeF, hget, decodeInteger, hdri]

/-- Witness for the amended C4: `:1A` fails on the non-digit `A`;
`$1\r<space>` fails on a `\r` not followed by `\n`. -/
theorem claim4_amended_witness :
    decodeTop [58, 49, 65] = DecodeOut.err (parseError (sizeMsg 65))
    ∧ decodeTop [36, 49, 13, 32] = DecodeOut.err (parseError (sizeMsg 32)) :=
  ⟨claim4_amended_size_token_failures.1 58 (Or.inr (Or.inr rfl)) [49] 65 []
      (by decide) (by decide) (by decide),
    claim4_amended_size_token_failures.2 36 (Or.inl rfl) [49] 32 []
      (by decide) (by decide)⟩

/-- C6: byte-exact encoder wire forms: `Array(n)` emits `*<n>\r\n` then
each element's encoding in order; `BulkString` of length `n` emits
`$<n>\r\n`, the raw bytes, `\r\n`; and in particular
`BulkString("THISISATEST")` encodes to exactly the 18 bytes
`$11\r\nTHISISATEST\r\n` (`n = 0` arrays are the `l = []` instance of
the first part, emitting `*0\r\n`). -/
theorem claim6_encoder_wire_forms :
    (∀ (l : List RespValue) (buf : List Nat),
      encode (RespValue.Array l) buf
        = buf ++ 42 :: natToDecBytes l.length ++ [13, 10] ++ (l.map enc).flatten)
    ∧ (∀ (b : List Nat) (buf : List Nat),
      encode (RespValue.BulkString b) buf
        = buf ++ 36 :: natToDecBytes b.length ++ [13, 10] ++ b ++ [13, 10])
    ∧ encode (RespValue.BulkString (strBytes "THISISATEST")) []
      = [36, 49, 49, 13, 10, 84, 72, 73, 83, 73, 83, 65, 84, 69, 83, 84, 13, 10]
    ∧ (encode (RespValue.BulkString (strBytes "THISISATEST")) []).length = 18 := by
  refine ⟨?_, ?_, ?_, ?_⟩
  · intro l buf
    rw [encode_app, enc_Array, encL_join]
    simp
  · intro b buf
    rw [encode_app, enc_Bulk]
    simp
  · rw [show encode (RespValue.BulkString (strBytes "THISISATEST")) []
      = enc (RespValue.BulkString (strBytes "THISISATEST")) from rfl, enc_Bulk]
    decide
  · rw [show encode (RespValue.BulkString (strBytes "THISISATEST")) []
      = enc (RespValue.BulkString (strBytes "THISISATEST")) from rfl, enc_Bulk]
    decide

/-- C7: extracting the unit type from `SimpleString("OK")` succeeds;
from any other SimpleString, and from Array/BulkString/Integer values,
it yields a conversion failure (the `RESP` kind), not a remote
failure. -/
theorem claim7_unit_acknowledgement :
    fromRespUnit (RespValue.SimpleString (strBytes "OK")) = Except.ok ()
    ∧ (∀ s : List Nat, s ≠ strBytes "OK" →
        fromRespUnit (RespValue.SimpleString s)
          = Except.error (RError.RESP
              (strBytes "Unexpected value within SimpleString: " ++ s) none))
    ∧ (∀ l, fromRespUnit (RespValue.Array l)
        = Except.error (errorResp "Unexpected value" (RespValue.Array l)))
    ∧ (∀ b, fromRespUnit (RespValue.BulkString b)
        = Except.error (errorResp "Unexpected value" (RespValue.BulkString b)))
    ∧ (∀ n, fromRespUnit (RespValue.Integer n)
        = Except.error (errorResp "Unexpected value" (RespValue.Integer n))) := by
  refine ⟨?_, ?_, fun l => rfl, fun b => rfl, fun n => rfl⟩
  · rfl
  · intro s hs
    simp only [fromRespUnit, fromResp, toResult, fromRespIntUnit]
    rw [if_neg hs]

/-- Witness for C7 at `SimpleString("PONG")`. -/
theorem claim7_unit_acknowledgement_witness :
    fromRespUnit (RespValue.SimpleString (strBytes "PONG"))
      = Except.error (RError.RESP
          (strBytes "Unexpected value within SimpleString: " ++ strBytes "PONG")
          none) :=
  claim7_unit_acknowledgement.2.1 (strBytes "PONG") (by decide)

/-- C8: the text extraction succeeds on exactly the three shapes —
BulkString (lossy UTF-8, total even on invalid UTF-8), Integer (decimal
text), SimpleString (passthrough) — and an Array yields a typed
conversion failure. -/
theorem claim8_string_extraction :
    (∀ bs, fromRespString (RespValue.BulkString bs)
        = Except.ok (fromUtf8Lossy bs))
    ∧ (∀ n, fromRespString (RespValue.Integer n)
        = Except.ok (natToDecBytes n))
    ∧ (∀ s, fromRespString (RespValue.SimpleString s) = Except.ok s)
    ∧ (∀ l, fromRespString (RespValue.Array l)
        = Except.error (errorResp "Cannot convert into a string"
            (RespValue.Array l))) :=
  ⟨fun _ => rfl, fun _ => rfl, fun _ => rfl, fun _ => rfl⟩

/-- C9: for every non-empty buffer whose first byte is not one of the
five tag bytes `$ * : + -`, decode returns the fatal typed parse
failure `Unexpected byte: <b>` — never incomplete and never a value. -/
theorem claim9_unknown_tag_fatal :
    ∀ (b : Nat) (rest : List Nat), b ≤ 255 →
      b ≠ 36 → b ≠ 42 → b ≠ 58 → b ≠ 43 → b ≠ 45 →
      decodeTop (b :: rest)
        = DecodeOut.err (parseError (strBytes "Unexpected byte: "
            ++ natToDecBytes b)) := by
  intro b rest hb h36 h42 h58 h43 h45
  interval_cases b <;>
    first
      | exact absurd rfl h36
      | exact absurd rfl h42
      | exact absurd rfl h58
      | exact absurd rfl h43
      | exact absurd rfl h45
      | simp [decodeTop, decodeF]

/-- Witness for C9 at the spec's example byte `#` (35). -/
theorem claim9_unknown_tag_fatal_witness :
    decodeTop (35 :: [])
      = DecodeOut.err (parseError (strBytes "Unexpected byte: "
          ++ natToDecBytes 35)) :=
  claim9_unknown_tag_fatal 35 [] (by decide) (by decide) (by decide)
    (by decide) (by decide) (by decide)

/-- C10: the codec's buffer is left byte-for-byte unchanged whenever
decode reports a fatal failure (and on incomplete); bytes are removed
from the front only on the success path, and then exactly the decoded
frame's length — in particular decoding a buffer holding one full
well-formed frame plus trailing bytes removes exactly the frame and
leaves the trailing bytes. -/
theorem claim10_buffer_discipline :
    ∀ buf : List Nat,
      (∀ e, decodeTop buf = DecodeOut.err e → codecDecode buf = (CodecOut.err e, buf))
      ∧ (decodeTop buf = DecodeOut.incomplete →
          codecDecode buf = (CodecOut.incomplete, buf))
      ∧ (∀ p v, decodeTop buf = DecodeOut.val p v →
          codecDecode buf = (CodecOut.decoded v, buf.drop p))
      ∧ (∀ (v : RespValue) (extra : List Nat),
          rustRepr v = true → noCRLF v = true → buf = encode v [] ++ extra →
          codecDecode buf = (CodecOut.decoded v, extra)) := by
  intro buf
  refine ⟨?_, ?_, ?_, ?_⟩
  · intro e he
    rw [codecDecode, he]
  · intro he
    rw [codecDecode, he]
  · intro p v he
    rw [codecDecode, he]
  · intro v extra hw hc hbuf
    subst hbuf
    have h0 := decodeF_enc v hw hc ((encode v [] ++ extra).length + 1) [] extra
      (by simp [enc])
    simp only [List.nil_append, List.length_nil, Nat.zero_add] at h0
    have htop : decodeTop (encode v [] ++ extra)
        = DecodeOut.val (enc v).length v := by
      rw [decodeTop]
      exact h0
    rw [codecDecode, htop]
    dsimp only
    rw [show encode v [] = enc v from rfl, List.drop_left]

/-- Witness for C10: the error case at `#` leaves the buffer unchanged;
the success case on `:4\r\n:7\r\n` removes exactly the first frame. -/
theorem claim10_buffer_discipline_witness :
    codecDecode [35] = (CodecOut.err (parseError (strBytes "Unexpected byte: "
        ++ natToDecBytes 35)), [35])
    ∧ codecDecode [58, 52, 13, 10, 58, 55, 13, 10]
      = (CodecOut.decoded (RespValue.Integer 4), [58, 55, 13, 10]) :=
  ⟨(claim10_buffer_discipline [35]).1 _ rfl,
    (claim10_buffer_discipline [58, 52, 13, 10, 58, 55, 13, 10]).2.2.1 4
      (RespValue.Integer 4) rfl⟩
